import Mathlib

/-!
Verification of the big-number codec and the array-marshalling entry points of
src/src/main/java/com/sri/yices/yicesJNI.cpp.

Bytes are modelled as natural numbers below 256. A Java jbyte is signed, so a
sign test b < 0 on a byte translates to 128 <= b on its unsigned value, and the
byte constants -1 and -128 are 255 and 128 here. Buffers are big-endian lists
(most significant byte first), exactly as the source stores them; the helpers
work on the little-endian mirror, where the carry loop of negate_bytes runs
head-first.
-/

/-- Value of a little-endian base-256 digit list. -/
def leVal : List Nat → Nat
  | [] => 0
  | x :: xs => x + 256 * leVal xs

/-- Value of a big-endian buffer, which is how the source lays bytes out
(b[0] is the most significant byte, source lines 158 to 161). -/
def beVal (b : List Nat) : Nat := leVal b.reverse

/-- Every entry of the list is a byte. -/
def ValidBytes (b : List Nat) : Prop := ∀ x ∈ b, x < 256

theorem validBytes_nil : ValidBytes [] := by intro x hx; cases hx

theorem validBytes_cons {x : Nat} {xs : List Nat} (hx : x < 256) (hxs : ValidBytes xs) :
    ValidBytes (x :: xs) := by
  intro y hy
  rcases List.mem_cons.mp hy with h | h
  · exact h ▸ hx
  · exact hxs y h

theorem validBytes_of_cons {x : Nat} {xs : List Nat} (h : ValidBytes (x :: xs)) :
    x < 256 ∧ ValidBytes xs :=
  ⟨h x (List.mem_cons_self x xs), fun y hy => h y (List.mem_cons_of_mem x hy)⟩

theorem validBytes_reverse {b : List Nat} (h : ValidBytes b) : ValidBytes b.reverse :=
  fun x hx => h x (List.mem_reverse.mp hx)

theorem leVal_append (a b : List Nat) :
    leVal (a ++ b) = leVal a + 256 ^ a.length * leVal b := by
  induction a with
  | nil => simp [leVal]
  | cons x xs ih =>
    simp only [List.cons_append, leVal, List.append_eq, ih, List.length_cons, pow_succ]
    ring

theorem leVal_lt (a : List Nat) (h : ValidBytes a) : leVal a < 256 ^ a.length := by
  induction a with
  | nil => simp [leVal]
  | cons x xs ih =>
    obtain ⟨hx, hxs⟩ := validBytes_of_cons h
    have hv := ih hxs
    have h2 : 256 * leVal xs ≤ 256 * (256 ^ xs.length - 1) :=
      Nat.mul_le_mul_left _ (by omega)
    have hp : 0 < 256 ^ xs.length := Nat.pos_pow_of_pos _ (by norm_num)
    simp only [leVal, List.length_cons, pow_succ]
    omega

theorem beVal_nil : beVal [] = 0 := rfl

theorem beVal_cons (x : Nat) (xs : List Nat) :
    beVal (x :: xs) = x * 256 ^ xs.length + beVal xs := by
  simp only [beVal, List.reverse_cons, leVal_append, List.length_reverse, leVal]
  ring

theorem beVal_lt (b : List Nat) (h : ValidBytes b) : beVal b < 256 ^ b.length := by
  have := leVal_lt b.reverse (validBytes_reverse h)
  simpa [beVal] using this

/-- One pass of the carry loop of negate_bytes (source lines 177 to 187), on the
little-endian mirror of the buffer: each byte becomes the low byte of
(b xor 255) + carry and the high bit of that sum is carried onward. -/
def negateLE : Nat → List Nat → List Nat
  | _, [] => []
  | c, x :: xs => ((x ^^^ 255) + c) % 256 :: negateLE (((x ^^^ 255) + c) / 256) xs

set_option maxRecDepth 4096 in
theorem xor_255_eq : ∀ x : Nat, x < 256 → x ^^^ 255 = 255 - x := by decide

theorem negateLE_length (c : Nat) (xs : List Nat) :
    (negateLE c xs).length = xs.length := by
  induction xs generalizing c with
  | nil => rfl
  | cons x xs ih => simp [negateLE, ih]

theorem negateLE_valid (c : Nat) (xs : List Nat) : ValidBytes (negateLE c xs) := by
  induction xs generalizing c with
  | nil => exact validBytes_nil
  | cons x xs ih =>
    exact validBytes_cons (Nat.mod_lt _ (by norm_num)) (ih _)

/-- Splitting a base-256 remainder off a modulus that is a multiple of 256. -/
theorem mod_split (r S M : Nat) (hr : r < 256) (hM : 0 < M) :
    (r + 256 * S) % (256 * M) = r + 256 * (S % M) := by
  have h1 : r + 256 * S = r + 256 * (S % M) + 256 * M * (S / M) := by
    conv_lhs => rw [show S = M * (S / M) + S % M from (Nat.div_add_mod S M).symm]
    ring
  have h2 : S % M < M := Nat.mod_lt _ hM
  have h3 : 256 * (S % M) ≤ 256 * (M - 1) := Nat.mul_le_mul_left _ (by omega)
  rw [h1, Nat.add_mul_mod_self_left]
  exact Nat.mod_eq_of_lt (by omega)

theorem leVal_negateLE (xs : List Nat) : ∀ c ≤ 1, ValidBytes xs →
    leVal (negateLE c xs) = (256 ^ xs.length - 1 - leVal xs + c) % 256 ^ xs.length := by
  induction xs with
  | nil =>
    intro c hc _
    simp only [negateLE, leVal, List.length_nil, pow_zero]
    omega
  | cons x xs ih =>
    intro c hc hv
    obtain ⟨hx, hxs⟩ := validBytes_of_cons hv
    have hxor : x ^^^ 255 = 255 - x := xor_255_eq x hx
    have ha : (x ^^^ 255) + c ≤ 256 := by omega
    have hcarry : ((x ^^^ 255) + c) / 256 ≤ 1 := by omega
    have hvlt : leVal xs < 256 ^ xs.length := leVal_lt xs hxs
    have hp : 0 < 256 ^ xs.length := Nat.pos_pow_of_pos _ (by norm_num)
    have hih := ih (((x ^^^ 255) + c) / 256) hcarry hxs
    simp only [negateLE, leVal, hih, List.length_cons, pow_succ]
    set a := (x ^^^ 255) + c with hadef
    set P := 256 ^ xs.length with hPdef
    set v := leVal xs with hvdef
    have key : (a % 256 + 256 * ((P - 1 - v + a / 256) % P)) = (a + 256 * (P - 1 - v)) % (256 * P) := by
      have h := mod_split (a % 256) (P - 1 - v + a / 256) P (Nat.mod_lt _ (by norm_num)) hp
      rw [show a % 256 + 256 * (P - 1 - v + a / 256) = a + 256 * (P - 1 - v) by omega] at h
      exact h.symm
    have hnum : a + 256 * (P - 1 - v) = P * 256 - 1 - (x + 256 * v) + c := by
      omega
    rw [key, hnum]
    congr 1
    ring

theorem leVal_negateLE_one (xs : List Nat) (hv : ValidBytes xs) :
    leVal (negateLE 1 xs) = (256 ^ xs.length - leVal xs) % 256 ^ xs.length := by
  have h := leVal_negateLE xs 1 (le_refl 1) hv
  have hlt := leVal_lt xs hv
  rw [h]
  congr 1
  omega

/-- negate_bytes (source lines 177 to 187): in-place twos-complement negation of
the whole big-endian buffer, modelled as a pure function. The loop walks from
the least significant byte, which is the head of the reversed list. -/
def negate_bytes (b : List Nat) : List Nat := (negateLE 1 b.reverse).reverse

theorem negate_bytes_length (b : List Nat) : (negate_bytes b).length = b.length := by
  simp [negate_bytes, negateLE_length]

theorem negate_bytes_valid (b : List Nat) : ValidBytes (negate_bytes b) :=
  validBytes_reverse (negateLE_valid _ _)

theorem beVal_negate_bytes (b : List Nat) (hv : ValidBytes b) :
    beVal (negate_bytes b) = (256 ^ b.length - beVal b) % 256 ^ b.length := by
  unfold negate_bytes beVal
  rw [List.reverse_reverse, leVal_negateLE_one _ (validBytes_reverse hv)]
  simp

/-- The nbytes - 1 magnitude bytes that mpz_export writes (source line 232),
least significant digit first; the source buffer holds their reverse. -/
def leDigits : Nat → Nat → List Nat
  | 0, _ => []
  | k + 1, m => m % 256 :: leDigits k (m / 256)

theorem leDigits_length (k m : Nat) : (leDigits k m).length = k := by
  induction k generalizing m with
  | zero => rfl
  | succ k ih => simp [leDigits, ih]

theorem leDigits_valid (k m : Nat) : ValidBytes (leDigits k m) := by
  induction k generalizing m with
  | zero => exact validBytes_nil
  | succ k ih => exact validBytes_cons (Nat.mod_lt _ (by norm_num)) (ih _)

theorem leVal_leDigits (k m : Nat) : leVal (leDigits k m) = m % 256 ^ k := by
  induction k generalizing m with
  | zero => simp [leDigits, leVal, Nat.mod_one]
  | succ k ih =>
    have hp : 0 < 256 ^ k := Nat.pos_pow_of_pos _ (by norm_num)
    have hsplit := mod_split (m % 256) (m / 256) (256 ^ k) (Nat.mod_lt _ (by norm_num)) hp
    rw [show m % 256 + 256 * (m / 256) = m by omega] at hsplit
    simp only [leDigits, leVal, ih, pow_succ]
    rw [show 256 ^ k * 256 = 256 * 256 ^ k by ring]
    exact hsplit.symm

/-- mpz_sizeinbase(z, 2), via a fuel-guided binary length; with fuel at least m
the fuel never runs out, and bits m m is the bit length of m (0 for m = 0). -/
def bits : Nat → Nat → Nat
  | _, 0 => 0
  | 0, _ + 1 => 1
  | f + 1, m + 1 => bits f ((m + 1) / 2) + 1

theorem bits_spec : ∀ f m, 0 < m → m ≤ f → 2 ^ (bits f m - 1) ≤ m ∧ m < 2 ^ bits f m := by
  intro f
  induction f with
  | zero => intro m hm hf; omega
  | succ f ih =>
    intro m hm hf
    match m, hm with
    | 1, _ =>
      show 2 ^ (bits f 0 + 1 - 1) ≤ 1 ∧ 1 < 2 ^ (bits f 0 + 1)
      simp [bits]
    | m + 2, _ =>
      show 2 ^ (bits f ((m + 2) / 2) + 1 - 1) ≤ m + 2 ∧ m + 2 < 2 ^ (bits f ((m + 2) / 2) + 1)
      have hq1 : 0 < (m + 2) / 2 := by omega
      have hq2 : (m + 2) / 2 ≤ f := by omega
      obtain ⟨hlo, hhi⟩ := ih ((m + 2) / 2) hq1 hq2
      set b := bits f ((m + 2) / 2) with hb
      have hb1 : 1 ≤ b := by
        rcases Nat.eq_zero_or_pos b with h0 | h1
        · exfalso; rw [h0, pow_zero] at hhi; omega
        · exact h1
      have hpow : 2 ^ b = 2 * 2 ^ (b - 1) := by
        conv_lhs => rw [show b = (b - 1) + 1 by omega]
        rw [pow_succ]; ring
      have hpow2 : 2 ^ (b + 1) = 2 * 2 ^ b := by rw [pow_succ]; ring
      rw [Nat.add_sub_cancel]
      omega

/-- mpz_sizeinbase(z.natAbs, 2) as used at source line 203: the bit length of
the magnitude, which GMP reports as 1 when the magnitude is 0. -/
def mpz_sizeinbase2 (m : Nat) : Nat := if m = 0 then 1 else bits m m

theorem mpz_sizeinbase2_pos (m : Nat) : 1 ≤ mpz_sizeinbase2 m := by
  unfold mpz_sizeinbase2
  split
  · omega
  · have := bits_spec m m (by omega) (le_refl m)
    rcases this with ⟨_, h⟩
    by_contra hc
    push_neg at hc
    interval_cases (bits m m)
    omega

theorem lt_pow_mpz_sizeinbase2 (m : Nat) : m < 2 ^ mpz_sizeinbase2 m := by
  unfold mpz_sizeinbase2
  split
  · omega
  · exact (bits_spec m m (by omega) (le_refl m)).2

theorem pow_mpz_sizeinbase2_le (m : Nat) (hm : 0 < m) :
    2 ^ (mpz_sizeinbase2 m - 1) ≤ m := by
  unfold mpz_sizeinbase2
  split
  · omega
  · exact (bits_spec m m hm (le_refl m)).1

/-- nbytes - 1 in mpz_to_byte_array (source line 204): the number of magnitude
bytes, ceil(nbits / 8). -/
def magLen (m : Nat) : Nat := (mpz_sizeinbase2 m + 7) / 8

theorem magLen_pos (m : Nat) : 1 ≤ magLen m := by
  have := mpz_sizeinbase2_pos m
  unfold magLen
  omega

theorem lt_pow_magLen (m : Nat) : m < 256 ^ magLen m := by
  have h1 := lt_pow_mpz_sizeinbase2 m
  have h2 : mpz_sizeinbase2 m ≤ 8 * magLen m := by unfold magLen; omega
  have h3 : 2 ^ mpz_sizeinbase2 m ≤ 2 ^ (8 * magLen m) :=
    Nat.pow_le_pow_right (by norm_num) h2
  have h4 : 2 ^ (8 * magLen m) = 256 ^ magLen m := by
    rw [pow_mul]; norm_num
  omega

theorem pow_magLen_le (m : Nat) (hm : 0 < m) (h2 : 2 ≤ magLen m) :
    256 ^ (magLen m - 1) ≤ m := by
  have h1 := pow_mpz_sizeinbase2_le m hm
  have hp := mpz_sizeinbase2_pos m
  have h3 : 8 * (magLen m - 1) ≤ mpz_sizeinbase2 m - 1 := by unfold magLen at *; omega
  have h4 : 2 ^ (8 * (magLen m - 1)) ≤ 2 ^ (mpz_sizeinbase2 m - 1) :=
    Nat.pow_le_pow_right (by norm_num) h3
  have h5 : 2 ^ (8 * (magLen m - 1)) = 256 ^ (magLen m - 1) := by
    rw [pow_mul]; norm_num
  omega

/-- The magnitude bytes aux[1 .. nbytes-1] as mpz_export leaves them
(source lines 230 to 232), most significant first. For a zero magnitude
mpz_export writes nothing and the zero-initialized aux[1] stays, which is the
same single zero byte this produces. -/
def encodeMag (m : Nat) : List Nat := (leDigits (magLen m) m).reverse

theorem encodeMag_length (m : Nat) : (encodeMag m).length = magLen m := by
  simp [encodeMag, leDigits_length]

theorem encodeMag_valid (m : Nat) : ValidBytes (encodeMag m) :=
  validBytes_reverse (leDigits_valid _ _)

theorem beVal_encodeMag (m : Nat) : beVal (encodeMag m) = m := by
  unfold encodeMag beVal
  rw [List.reverse_reverse, leVal_leDigits]
  exact Nat.mod_eq_of_lt (lt_pow_magLen m)

/-- The full nbytes buffer right before the redundancy test (source lines 230
to 247): a zero sign byte in front of the magnitude, with the whole buffer
negated when z is negative (line 240 to 241). -/
def encodeBuf (z : Int) : List Nat :=
  if z < 0 then negate_bytes (0 :: encodeMag z.natAbs) else 0 :: encodeMag z.natAbs

/-- The final copy into the Java array, aux + r of length nbytes - r
(source lines 249 to 261): a single leading byte is dropped when it is 0x00
before a clear high bit or 0xFF before a set high bit. -/
def stripTop (b : List Nat) : List Nat :=
  if (b.headI = 0 ∧ b.tail.headI < 128) ∨ (b.headI = 255 ∧ 128 ≤ b.tail.headI)
  then b.tail else b

/-- mpz_to_byte_array (source lines 199 to 273). The none result models the
bad_alloc path taken when nbytes would exceed the maximum jint (lines 220 to
224); the stack-buffer and heap paths build the same bytes, and allocation is
otherwise assumed to succeed. -/
def mpz_to_byte_array (z : Int) : Option (List Nat) :=
  if magLen z.natAbs + 1 ≤ 2147483647 then some (stripTop (encodeBuf z)) else none

/-- byte_array_to_mpz (source lines 281 to 289): the value stored in z. The
jbyte sign test b[0] < 0 is 128 <= b.headI on unsigned bytes; for a negative
input the buffer is negated in place, imported as an unsigned big-endian
magnitude and the result negated. -/
def byte_array_to_mpz (b : List Nat) : Int :=
  if 128 ≤ b.headI then -(beVal (negate_bytes b) : Int) else (beVal b : Int)

/-- The decoder reads a buffer as a big-endian twos-complement value: unsigned
value minus 2^(8n) when the sign bit of the leading byte is set. -/
theorem byte_array_to_mpz_eq (b : List Nat) (hv : ValidBytes b) (hne : b ≠ []) :
    byte_array_to_mpz b =
      (beVal b : Int) - (if 128 ≤ b.headI then ((256 : Int) ^ b.length) else 0) := by
  unfold byte_array_to_mpz
  by_cases hh : 128 ≤ b.headI
  · rw [if_pos hh, if_pos hh]
    obtain ⟨b0, rest, rfl⟩ := List.exists_cons_of_ne_nil hne
    have hb0 : 128 ≤ b0 := hh
    have hpos : 0 < beVal (b0 :: rest) := by
      rw [beVal_cons]
      have : 0 < 256 ^ rest.length := Nat.pos_pow_of_pos _ (by norm_num)
      nlinarith
    have hlt : beVal (b0 :: rest) < 256 ^ (b0 :: rest).length := beVal_lt _ hv
    rw [beVal_negate_bytes _ hv]
    rw [Nat.mod_eq_of_lt (by omega)]
    have hcast : ((256 ^ (b0 :: rest).length - beVal (b0 :: rest) : Nat) : Int)
        = (256 : Int) ^ (b0 :: rest).length - (beVal (b0 :: rest) : Int) := by
      push_cast [Nat.cast_sub (le_of_lt hlt)]
      ring
    rw [hcast]
    ring
  · rw [if_neg hh, if_neg hh]
    omega

/-- The minimality invariant of the wire format: no redundant leading 0x00
byte (0x00 before a byte with clear high bit) and no redundant leading 0xFF
byte (0xFF before a byte with set high bit). -/
def MinimalEncoding : List Nat → Prop
  | b0 :: b1 :: _ => ¬(b0 = 0 ∧ b1 < 128) ∧ ¬(b0 = 255 ∧ 128 ≤ b1)
  | _ => True

theorem minimalEncoding_single (b0 : Nat) : MinimalEncoding [b0] := by
  simp [MinimalEncoding]

theorem round_trip_nonneg (z : Int) (hz : 0 ≤ z) :
    byte_array_to_mpz (stripTop (encodeBuf z)) = z ∧
      MinimalEncoding (stripTop (encodeBuf z)) := by
  have hznat : ((z.natAbs : Nat) : Int) = z := Int.natAbs_of_nonneg hz
  set m := z.natAbs with hm
  have hbuf : encodeBuf z = 0 :: encodeMag m := by
    unfold encodeBuf
    rw [if_neg (not_lt.mpr hz)]
  have hmagne : encodeMag m ≠ [] :=
    List.length_pos.mp (by rw [encodeMag_length]; exact magLen_pos m)
  obtain ⟨d, rest, hmag⟩ := List.exists_cons_of_ne_nil hmagne
  have hvalm : beVal (encodeMag m) = m := beVal_encodeMag m
  rw [hbuf, hmag]
  by_cases hd : d < 128
  · -- the leading zero byte is redundant and is stripped
    have hcond : ((0 : Nat) :: d :: rest).headI = 0 ∧ (((0 : Nat) :: d :: rest).tail.headI < 128) := by
      constructor
      · rfl
      · simpa using hd
    have hstrip : stripTop (0 :: d :: rest) = d :: rest := by
      unfold stripTop
      rw [if_pos (Or.inl ⟨hcond.1, hcond.2⟩)]
      rfl
    rw [hstrip]
    constructor
    · unfold byte_array_to_mpz
      rw [if_neg (by simpa using not_le.mpr hd)]
      rw [← hmag, hvalm, hznat]
    · cases rest with
      | nil => exact minimalEncoding_single d
      | cons r1 rest2 =>
        have hd0 : d ≠ 0 := by
          intro h0
          have hlen : (encodeMag m).length = magLen m := encodeMag_length m
          rw [hmag] at hlen
          have hn2 : 2 ≤ magLen m := by
            simp only [List.length_cons] at hlen
            omega
          have hm0 : 0 < m := by
            by_contra hc
            push_neg at hc
            have hmz : m = 0 := by omega
            have : magLen m = 1 := by rw [hmz]; rfl
            omega
          have htop : 256 ^ (magLen m - 1) ≤ m := pow_magLen_le m hm0 hn2
          have hsub : beVal (encodeMag m) = beVal (r1 :: rest2) := by
            rw [hmag, h0, beVal_cons]
            ring_nf
          have hrest_lt : beVal (r1 :: rest2) < 256 ^ (r1 :: rest2).length := by
            apply beVal_lt
            have := encodeMag_valid m
            rw [hmag] at this
            exact (validBytes_of_cons this).2
          have hlen2 : (r1 :: rest2).length = magLen m - 1 := by
            simp only [List.length_cons] at hlen ⊢
            omega
          rw [hlen2] at hrest_lt
          omega
        simp only [MinimalEncoding]
        constructor
        · intro hcontra
          exact hd0 hcontra.1
        · intro hcontra
          omega
  · -- no strip: the magnitude top byte already has its high bit set
    have hstrip : stripTop (0 :: d :: rest) = 0 :: d :: rest := by
      unfold stripTop
      rw [if_neg]
      intro hcontra
      rcases hcontra with ⟨_, h2⟩ | ⟨h1, _⟩
      · exact hd (by simpa using h2)
      · exact absurd h1 (by norm_num)
    rw [hstrip]
    constructor
    · unfold byte_array_to_mpz
      rw [if_neg (by norm_num [List.headI])]
      rw [show (0 : Nat) :: d :: rest = 0 :: encodeMag m by rw [hmag]]
      rw [beVal_cons, hvalm]
      simp [hznat]
    · simp only [MinimalEncoding]
      constructor
      · intro hcontra
        exact hd hcontra.2
      · intro hcontra
        exact absurd hcontra.1 (by norm_num)

theorem round_trip_neg (z : Int) (hz : z < 0) :
    byte_array_to_mpz (stripTop (encodeBuf z)) = z ∧
      MinimalEncoding (stripTop (encodeBuf z)) := by
  set m := z.natAbs with hm
  have hm1 : 1 ≤ m := Int.natAbs_pos.mpr (by omega)
  set n := magLen m with hn
  have hn1 : 1 ≤ n := magLen_pos m
  have hmlt : m < 256 ^ n := lt_pow_magLen m
  have hppos : 0 < 256 ^ n := Nat.pos_pow_of_pos _ (by norm_num)
  have hpow1 : 256 ^ (n + 1) = 256 ^ n * 256 := by rw [pow_succ]
  have hbuf : encodeBuf z = negate_bytes (0 :: encodeMag m) := by
    unfold encodeBuf
    rw [if_pos hz]
  have hv0 : ValidBytes (0 :: encodeMag m) :=
    validBytes_cons (by norm_num) (encodeMag_valid m)
  have hlen0 : (0 :: encodeMag m).length = n + 1 := by
    simp [encodeMag_length, hn]
  have hval0 : beVal (0 :: encodeMag m) = m := by
    rw [beVal_cons, beVal_encodeMag]
    ring_nf
  have hbval : beVal (encodeBuf z) = 256 ^ (n + 1) - m := by
    rw [hbuf, beVal_negate_bytes _ hv0, hlen0, hval0]
    exact Nat.mod_eq_of_lt (by omega)
  have hblen : (encodeBuf z).length = n + 1 := by
    rw [hbuf, negate_bytes_length, hlen0]
  have hbv : ValidBytes (encodeBuf z) := by
    rw [hbuf]; exact negate_bytes_valid _
  obtain ⟨b0, rest, hsplit⟩ := List.exists_cons_of_ne_nil
    (List.length_pos.mp (show 0 < (encodeBuf z).length by omega))
  have hrestlen : rest.length = n := by
    have := hblen
    rw [hsplit] at this
    simpa using this
  have hrestv : ValidBytes rest := by
    have := hbv; rw [hsplit] at this
    exact (validBytes_of_cons this).2
  have hb0v : b0 < 256 := by
    have := hbv; rw [hsplit] at this
    exact (validBytes_of_cons this).1
  have hrest_lt : beVal rest < 256 ^ n := by
    have := beVal_lt rest hrestv
    rwa [hrestlen] at this
  have hbeq : b0 * 256 ^ n + beVal rest = 256 ^ (n + 1) - m := by
    have h := hbval
    rw [hsplit, beVal_cons, hrestlen] at h
    exact h
  have hb0 : b0 = 255 := by
    rcases Nat.lt_or_ge b0 255 with hlt | hge
    · exfalso
      have h1 : b0 * 256 ^ n ≤ 254 * 256 ^ n := Nat.mul_le_mul_right _ (by omega)
      omega
    · omega
  subst hb0
  have hrestval : beVal rest = 256 ^ n - m := by omega
  obtain ⟨r1, rest2, hr⟩ := List.exists_cons_of_ne_nil
    (List.length_pos.mp (show 0 < rest.length by omega))
  subst hr
  rw [hsplit]
  by_cases hr1 : 128 ≤ r1
  · -- the leading 0xFF byte is redundant and is stripped
    have hstrip : stripTop (255 :: r1 :: rest2) = r1 :: rest2 := by
      unfold stripTop
      rw [if_pos (Or.inr ⟨rfl, by simpa using hr1⟩)]
      rfl
    rw [hstrip]
    constructor
    · unfold byte_array_to_mpz
      rw [if_pos (by simpa using hr1)]
      rw [beVal_negate_bytes _ hrestv]
      rw [show ((r1 : Nat) :: rest2).length = n from hrestlen, hrestval]
      rw [show 256 ^ n - (256 ^ n - m) = m by omega, Nat.mod_eq_of_lt hmlt]
      omega
    · cases rest2 with
      | nil => exact minimalEncoding_single r1
      | cons s rest3 =>
        simp only [MinimalEncoding]
        constructor
        · intro hcontra
          omega
        · rintro ⟨h255, hs⟩
          -- a 0xFF byte before a set high bit cannot survive in the encoder output
          subst h255
          have hk : rest3.length + 2 = n := by
            simpa using hrestlen
          have hn2 : 2 ≤ n := by omega
          have htop : 256 ^ (n - 1) ≤ m := pow_magLen_le m (by omega) hn2
          have hval2 : beVal (255 :: s :: rest3) = 256 ^ n - m := hrestval
          rw [beVal_cons, beVal_cons] at hval2
          have hl1 : ((s : Nat) :: rest3).length = n - 1 := by
            simpa using (by omega : rest3.length + 1 = n - 1)
          have hl2 : rest3.length = n - 2 := by omega
          rw [hl1, hl2] at hval2
          have hq : 0 < 256 ^ (n - 2) := Nat.pos_pow_of_pos _ (by norm_num)
          have hX : 128 * 256 ^ (n - 2) ≤ s * 256 ^ (n - 2) :=
            Nat.mul_le_mul_right _ hs
          have hpk1 : 256 ^ (n - 1) = 256 ^ (n - 2) * 256 := by
            rw [← pow_succ]
            congr 1
            omega
          have hpk2 : 256 ^ n = 256 ^ (n - 1) * 256 := by
            rw [← pow_succ]
            congr 1
            omega
          -- generalize the one nonlinear product
          generalize hXdef : s * 256 ^ (n - 2) = X at hval2 hX
          omega
  · -- no strip: buffer keeps its 0xFF sign byte
    have hstrip : stripTop (255 :: r1 :: rest2) = 255 :: r1 :: rest2 := by
      unfold stripTop
      rw [if_neg]
      rintro (⟨h1, _⟩ | ⟨_, h2⟩)
      · exact absurd h1 (by norm_num)
      · exact hr1 (by simpa using h2)
    rw [hstrip]
    constructor
    · unfold byte_array_to_mpz
      rw [if_pos (by norm_num [List.headI])]
      have hbvv : ValidBytes (255 :: r1 :: rest2) := by
        rw [← hsplit]; exact hbv
      rw [beVal_negate_bytes _ hbvv]
      have hlenfull : ((255 : Nat) :: r1 :: rest2).length = n + 1 := by
        rw [← hsplit]; exact hblen
      have hvalfull : beVal (255 :: r1 :: rest2) = 256 ^ (n + 1) - m := by
        rw [← hsplit]; exact hbval
      rw [hlenfull, hvalfull]
      rw [show 256 ^ (n + 1) - (256 ^ (n + 1) - m) = m by omega,
        Nat.mod_eq_of_lt (by omega)]
      omega
    · simp only [MinimalEncoding]
      constructor
      · intro hcontra
        exact absurd hcontra.1 (by norm_num)
      · intro hcontra
        exact hr1 hcontra.2

/-- C1: for every big integer representable in the target byte-length range
(so mpz_to_byte_array succeeds), byte_array_to_mpz applied to the produced
encoding yields the integer again, and the encoding is minimal: no redundant
leading 0x00 byte before a clear high bit, and no redundant leading 0xFF byte
before a set high bit. -/
theorem mpz_byte_array_round_trip (z : Int) (bs : List Nat)
    (h : mpz_to_byte_array z = some bs) :
    byte_array_to_mpz bs = z ∧ MinimalEncoding bs := by
  unfold mpz_to_byte_array at h
  split at h
  · obtain rfl : stripTop (encodeBuf z) = bs := Option.some.inj h
    rcases lt_or_le z 0 with hz | hz
    · exact round_trip_neg z hz
    · exact round_trip_nonneg z hz
  · exact absurd h (by simp)

theorem mpz_byte_array_round_trip_witness :
    byte_array_to_mpz [0, 128] = 128 ∧ MinimalEncoding [0, 128] :=
  mpz_byte_array_round_trip 128 [0, 128] (by decide)

/-- C2: the encoder produces exactly the canonical example byte sequences of
the source comment (lines 165 to 173), with bytes written unsigned:
127 to 7F, -127 to 81, 128 to 00 80, -128 to 80, 255 to 00 FF, -255 to FF 01,
256 to 01 00, -256 to FF 00, and 0 to the single byte 00. -/
theorem mpz_to_byte_array_canonical_examples :
    mpz_to_byte_array 127 = some [0x7F] ∧
    mpz_to_byte_array (-127) = some [0x81] ∧
    mpz_to_byte_array 128 = some [0x00, 0x80] ∧
    mpz_to_byte_array (-128) = some [0x80] ∧
    mpz_to_byte_array 255 = some [0x00, 0xFF] ∧
    mpz_to_byte_array (-255) = some [0xFF, 0x01] ∧
    mpz_to_byte_array 256 = some [0x01, 0x00] ∧
    mpz_to_byte_array (-256) = some [0xFF, 0x00] ∧
    mpz_to_byte_array 0 = some [0x00] := by
  refine ⟨?_, ?_, ?_, ?_, ?_, ?_, ?_, ?_, ?_⟩ <;> decide

/-- C3: the decoder tolerates non-minimal input. Prepending a redundant 0x00
byte to a buffer whose high bit is clear, or a redundant 0xFF byte to a buffer
whose high bit is set, does not change the decoded value; in particular the
zero-padded 00 00 7F decodes to 127. -/
theorem byte_array_to_mpz_padding (b : List Nat) (hv : ValidBytes b) (hne : b ≠ []) :
    (b.headI < 128 → byte_array_to_mpz (0 :: b) = byte_array_to_mpz b) ∧
    (128 ≤ b.headI → byte_array_to_mpz (255 :: b) = byte_array_to_mpz b) ∧
    byte_array_to_mpz [0x00, 0x00, 0x7F] = 127 := by
  obtain ⟨b0, rest, rfl⟩ := List.exists_cons_of_ne_nil hne
  have hb0 : b0 < 256 := (validBytes_of_cons hv).1
  refine ⟨?_, ?_, by decide⟩
  · intro hh
    have hv0 : ValidBytes (0 :: b0 :: rest) := validBytes_cons (by norm_num) hv
    rw [byte_array_to_mpz_eq _ hv0 (by simp),
      byte_array_to_mpz_eq _ hv hne]
    have hh0 : ¬(128 ≤ ((0 : Nat) :: b0 :: rest).headI) := by norm_num [List.headI]
    have hh1 : ¬(128 ≤ ((b0 : Nat) :: rest).headI) := by simpa using not_le.mpr hh
    rw [if_neg hh0, if_neg hh1, beVal_cons]
    push_cast
    ring
  · intro hh
    have hv255 : ValidBytes (255 :: b0 :: rest) := validBytes_cons (by norm_num) hv
    rw [byte_array_to_mpz_eq _ hv255 (by simp),
      byte_array_to_mpz_eq _ hv hne]
    have hh0 : 128 ≤ ((255 : Nat) :: b0 :: rest).headI := by norm_num [List.headI]
    have hh1 : 128 ≤ ((b0 : Nat) :: rest).headI := by simpa using hh
    rw [if_pos hh0, if_pos hh1, beVal_cons]
    have hlen : ((255 : Nat) :: b0 :: rest).length = (b0 :: rest).length + 1 := by simp
    rw [hlen]
    push_cast
    ring

theorem byte_array_to_mpz_padding_witness :
    byte_array_to_mpz [0, 127] = byte_array_to_mpz [127] :=
  (byte_array_to_mpz_padding [127] (by unfold ValidBytes; decide) (by decide)).1 (by decide)

/-!
Rational and integer constant entry points (source lines 339 to 405).
GetByteArrayElements may hand the native code either a fresh copy of the Java
array or a pointer to the array storage itself; the JNI contract leaves the
choice to the JVM, reported through the isCopy flag. ReleaseByteArrayElements
with JNI_ABORT drops the buffer without copy-back, so it restores nothing when
the buffer aliased the array. The models below take that choice as an explicit
isCopy argument and return both the result and the callers array afterwards.
-/

/-- The in-place effect byte_array_to_mpz (lines 281 to 289) has on the buffer
it reads: the buffer is negated in place exactly when the sign bit of the
leading byte is set. -/
def byte_array_to_mpz_buf (b : List Nat) : List Nat :=
  if 128 ≤ b.headI then negate_bytes b else b

/-- mpq_canonicalize on a fraction with nonzero denominator: divide out the
gcd and force the denominator positive; the sign moves to the numerator. -/
def mpq_canonicalize (nu de : Int) : Int × Int :=
  let g : Int := Int.gcd nu de
  let n1 := nu / g
  let d1 := de / g
  if d1 < 0 then (-n1, -d1) else (n1, d1)

/-- The argument bytesToRationalConstant hands to yices_mpq, if any: both byte
arrays are decoded, and only when the decoded denominator is nonzero is the
canonicalized fraction passed on (source lines 386 to 393). none means
yices_mpq is never invoked and the sentinel -1 is returned. -/
def rationalToYicesArg (num den : List Nat) : Option (Int × Int) :=
  if byte_array_to_mpz den = 0 then none
  else some (mpq_canonicalize (byte_array_to_mpz num) (byte_array_to_mpz den))

/-- Java_com_sri_yices_Yices_bytesToIntConstant (source lines 339 to 365):
result term plus the callers array after the call, given the abstract native
constructor yices_mpz and the JVM copying choice. The release is JNI_ABORT, so
in-place negation persists exactly when the JVM pinned the array. -/
def Java_com_sri_yices_Yices_bytesToIntConstant (yices_mpz : Int → Int)
    (isCopy : Bool) (a : List Nat) : Int × List Nat :=
  (yices_mpz (byte_array_to_mpz a),
   if isCopy then a else byte_array_to_mpz_buf a)

/-- Java_com_sri_yices_Yices_bytesToRationalConstant (source lines 371 to 405):
result term plus both caller arrays after the call. Both arrays are decoded
(mutating their buffers in place when negative) before the zero-denominator
test; both releases are JNI_ABORT. -/
def Java_com_sri_yices_Yices_bytesToRationalConstant (yices_mpq : Int × Int → Int)
    (isCopyNum isCopyDen : Bool) (num den : List Nat) : Int × List Nat × List Nat :=
  ((match rationalToYicesArg num den with
    | some q => yices_mpq q
    | none => -1),
   (if isCopyNum then num else byte_array_to_mpz_buf num),
   (if isCopyDen then den else byte_array_to_mpz_buf den))

/-- C4: for every numerator byte array and every denominator byte array that
decodes to zero, bytesToRationalConstant returns the sentinel -1 (whatever term
constructor the native library would have offered), and no argument is ever
handed to yices_mpq, so a rational with denominator zero is never built. -/
theorem bytesToRationalConstant_zero_den (yices_mpq : Int × Int → Int)
    (isCopyNum isCopyDen : Bool) (num den : List Nat)
    (h : byte_array_to_mpz den = 0) :
    (Java_com_sri_yices_Yices_bytesToRationalConstant yices_mpq isCopyNum isCopyDen
      num den).1 = -1 ∧ rationalToYicesArg num den = none := by
  have harg : rationalToYicesArg num den = none := by
    unfold rationalToYicesArg
    rw [if_pos h]
  constructor
  · unfold Java_com_sri_yices_Yices_bytesToRationalConstant
    rw [harg]
  · exact harg

theorem bytesToRationalConstant_zero_den_witness :
    (Java_com_sri_yices_Yices_bytesToRationalConstant (fun q => q.1) true true
      [127] [0]).1 = -1 ∧ rationalToYicesArg [127] [0] = none :=
  bytesToRationalConstant_zero_den (fun q => q.1) true true [127] [0] (by decide)

theorem mpq_canonicalize_reduced (nu de : Int) (hde : de ≠ 0) :
    0 < (mpq_canonicalize nu de).2 ∧
    Int.gcd (mpq_canonicalize nu de).1 (mpq_canonicalize nu de).2 = 1 ∧
    (mpq_canonicalize nu de).1 * de = (mpq_canonicalize nu de).2 * nu := by
  set g : Nat := Int.gcd nu de with hgdef
  have hg : (0 : Nat) < g := Int.gcd_pos_of_ne_zero_right nu hde
  have hgz : ((g : Nat) : Int) ≠ 0 := by
    exact_mod_cast Nat.pos_iff_ne_zero.mp hg
  obtain ⟨a, ha⟩ : ((g : Nat) : Int) ∣ nu := Int.gcd_dvd_left
  obtain ⟨b, hb⟩ : ((g : Nat) : Int) ∣ de := Int.gcd_dvd_right
  have hna : nu / ((g : Nat) : Int) = a := by
    rw [ha, Int.mul_ediv_cancel_left _ hgz]
  have hdb : de / ((g : Nat) : Int) = b := by
    rw [hb, Int.mul_ediv_cancel_left _ hgz]
  have hb0 : b ≠ 0 := by
    intro h0
    rw [h0, mul_zero] at hb
    exact hde hb
  have hab : Int.gcd a b = 1 := by
    have hmul : (g : Nat) = g * Int.gcd a b := by
      calc (g : Nat) = Int.gcd nu de := hgdef
        _ = Int.gcd (((g : Nat) : Int) * a) (((g : Nat) : Int) * b) := by
            rw [← ha, ← hb]
        _ = (((g : Nat) : Int)).natAbs * Int.gcd a b := Int.gcd_mul_left _ _ _
        _ = g * Int.gcd a b := by simp
    exact Nat.eq_of_mul_eq_mul_left hg
      (show g * Int.gcd a b = g * 1 by rw [Nat.mul_one]; exact hmul.symm)
  have hcan : mpq_canonicalize nu de = if b < 0 then (-a, -b) else (a, b) := by
    simp only [mpq_canonicalize]
    rw [← hgdef, hna, hdb]
  rw [hcan]
  by_cases hbneg : b < 0
  · rw [if_pos hbneg]
    refine ⟨by simpa using hbneg, ?_, ?_⟩
    · simp only [Int.neg_gcd, Int.gcd_neg]
      exact hab
    · rw [ha, hb]
      ring
  · rw [if_neg hbneg]
    refine ⟨by omega, hab, ?_⟩
    rw [ha, hb]
    ring

/-- C8: rational construction canonicalizes before touching the native
constructor. Numerator 4 over denominator 2 hands yices_mpq the same fraction
as 2 over 1, so any native constructor yields the same term for both; and in
general, for every nonzero decoded denominator, the pair handed to yices_mpq
is in lowest terms, has a strictly positive denominator, and represents the
decoded fraction. -/
theorem bytesToRationalConstant_canonicalizes :
    (∀ (yices_mpq : Int × Int → Int) (c1 c2 : Bool),
      (Java_com_sri_yices_Yices_bytesToRationalConstant yices_mpq c1 c2 [4] [2]).1 =
      (Java_com_sri_yices_Yices_bytesToRationalConstant yices_mpq c1 c2 [2] [1]).1) ∧
    rationalToYicesArg [4] [2] = some (2, 1) ∧
    (∀ num den : List Nat, byte_array_to_mpz den ≠ 0 →
      ∃ p q : Int, rationalToYicesArg num den = some (p, q) ∧ 0 < q ∧
        Int.gcd p q = 1 ∧ p * byte_array_to_mpz den = q * byte_array_to_mpz num) := by
  refine ⟨?_, by decide, ?_⟩
  · intro f c1 c2
    unfold Java_com_sri_yices_Yices_bytesToRationalConstant
    rw [show rationalToYicesArg [4] [2] = some (2, 1) by decide,
      show rationalToYicesArg [2] [1] = some (2, 1) by decide]
  · intro num den hden
    have h := mpq_canonicalize_reduced (byte_array_to_mpz num) (byte_array_to_mpz den) hden
    refine ⟨(mpq_canonicalize (byte_array_to_mpz num) (byte_array_to_mpz den)).1,
      (mpq_canonicalize (byte_array_to_mpz num) (byte_array_to_mpz den)).2,
      ?_, h.1, h.2.1, h.2.2⟩
    unfold rationalToYicesArg
    rw [if_neg hden]

theorem bytesToRationalConstant_canonicalizes_witness :
    ∃ p q : Int, rationalToYicesArg [6] [4] = some (p, q) ∧ 0 < q ∧
      Int.gcd p q = 1 ∧ p * byte_array_to_mpz [4] = q * byte_array_to_mpz [6] :=
  bytesToRationalConstant_canonicalizes.2.2 [6] [4] (by decide)

/-- C10: evaluation of the entry points at a pinning JVM (isCopy = false, a
choice the JNI contract allows GetByteArrayElements). Decoding the negative
input 0xFF negates the buffer in place, JNI_ABORT restores nothing that was
written through a pinned pointer, and the callers array is observably changed
from FF to 01; with a copying JVM (isCopy = true) the array survives.
So the release-in-abort-mode discipline does not by itself keep the callers
bytes intact, contrary to the don't-change-a comments at lines 331 and 361. -/
theorem bytesToIntConstant_pinned_mutation :
    (Java_com_sri_yices_Yices_bytesToIntConstant (fun z => z) false [0xFF]).2 = [0x01] ∧
    (Java_com_sri_yices_Yices_bytesToIntConstant (fun z => z) true [0xFF]).2 = [0xFF] ∧
    (Java_com_sri_yices_Yices_bytesToRationalConstant (fun q => q.1) false false
      [0x01] [0xFF]).2.2 = [0x01] := by
  refine ⟨?_, ?_, ?_⟩
  · decide
  · decide
  · decide

/-!
Variadic connectives over term arrays (source lines 968 to 1049 and 1134 to
1158). The native operations yices_and, yices_or, yices_xor and yices_distinct
are permitted to reorder or mutate the argument buffer, so each is modelled as
a function from the buffer contents to a result term together with the buffer
contents after the call. Below the small-arity threshold the entry points copy
the arguments into a stack buffer with GetIntArrayRegion, which always copies;
above it they call cloneIntArray. cloneIntArray (lines 114 to 136) receives
the out-parameter copy as a pointer from every caller, and its test if (!copy)
inspects that never-null pointer instead of the flag *copy it points to, so
the manual-copy branch documented in its comment is dead code: the buffer it
returns is exactly the one GetIntArrayElements produced, which the JNI
contract allows to be either a fresh copy (isCopy true) or the array storage
itself (isCopy false). freeClonedIntArray (lines 141 to 147) likewise always
takes the ReleaseIntArrayElements JNI_ABORT path, which restores nothing that
was written through a pinned pointer.
-/

/-- AUX_SIZE (source line 971): the small-arity threshold. -/
def AUX_SIZE : Nat := 10

/-- A native connective: from the argument buffer it yields the result term
and the buffer contents after the call. -/
def NativeArrayOp : Type := List Int → Int × List Int

/-- ReleaseIntArrayElements in JNI_ABORT mode: with a JVM copy the array keeps
its old contents, with a pinned buffer the mutations are already in place. -/
def releaseAbort (isCopy : Bool) (original buffer : List Int) : List Int :=
  if isCopy then original else buffer

/-- Java_com_sri_yices_Yices_and (source lines 973 to 997): result term and the
callers array after the call. The stack path copies via GetIntArrayRegion; the
heap path hands the native operation the buffer cloneIntArray returned and
releases it with JNI_ABORT. The threshold test is n less-or-equal AUX_SIZE. -/
def Java_com_sri_yices_Yices_and (yices_and : NativeArrayOp) (isCopy : Bool)
    (arg : List Int) : Int × List Int :=
  if arg.length ≤ AUX_SIZE then
    ((yices_and arg).1, arg)
  else
    ((yices_and arg).1, releaseAbort isCopy arg (yices_and arg).2)

/-- Java_com_sri_yices_Yices_or (source lines 999 to 1023): same shape as the
conjunction, but the threshold test is n strictly-less-than AUX_SIZE. -/
def Java_com_sri_yices_Yices_or (yices_or : NativeArrayOp) (isCopy : Bool)
    (arg : List Int) : Int × List Int :=
  if arg.length < AUX_SIZE then
    ((yices_or arg).1, arg)
  else
    ((yices_or arg).1, releaseAbort isCopy arg (yices_or arg).2)

/-- Java_com_sri_yices_Yices_xor (source lines 1025 to 1049): threshold test is
n strictly-less-than AUX_SIZE. -/
def Java_com_sri_yices_Yices_xor (yices_xor : NativeArrayOp) (isCopy : Bool)
    (arg : List Int) : Int × List Int :=
  if arg.length < AUX_SIZE then
    ((yices_xor arg).1, arg)
  else
    ((yices_xor arg).1, releaseAbort isCopy arg (yices_xor arg).2)

/-- Java_com_sri_yices_Yices_distinct (source lines 1134 to 1158): threshold
test is n strictly-less-than AUX_SIZE. -/
def Java_com_sri_yices_Yices_distinct (yices_distinct : NativeArrayOp) (isCopy : Bool)
    (arg : List Int) : Int × List Int :=
  if arg.length < AUX_SIZE then
    ((yices_distinct arg).1, arg)
  else
    ((yices_distinct arg).1, releaseAbort isCopy arg (yices_distinct arg).2)

/-- C5: evaluation of the conjunction entry point at a pinning JVM. With an
11-element array (at the threshold or above, so on the cloneIntArray path), a
native operation that reverses its buffer, and GetIntArrayElements returning
the array storage itself (isCopy false, allowed by JNI and unguarded because
the clone branch of cloneIntArray tests the pointer instead of the flag), the
callers array is reversed after the call instead of unchanged; with a copying
JVM (isCopy true) it survives. -/
theorem connective_pinned_mutation :
    (Java_com_sri_yices_Yices_and (fun l => (-1, l.reverse)) false
      [0, 1, 2, 3, 4, 5, 6, 7, 8, 9, 10]).2 =
      [10, 9, 8, 7, 6, 5, 4, 3, 2, 1, 0] ∧
    (Java_com_sri_yices_Yices_and (fun l => (-1, l.reverse)) true
      [0, 1, 2, 3, 4, 5, 6, 7, 8, 9, 10]).2 =
      [0, 1, 2, 3, 4, 5, 6, 7, 8, 9, 10] ∧
    (Java_com_sri_yices_Yices_distinct (fun l => (-1, l.reverse)) false
      [0, 1, 2, 3, 4, 5, 6, 7, 8, 9]).2 =
      [9, 8, 7, 6, 5, 4, 3, 2, 1, 0] := by
  refine ⟨?_, ?_, ?_⟩
  · decide
  · decide
  · decide

/-- C6: whichever marshalling path the arity sends a call down, the stack
buffer below the threshold or the heap buffer at and above it, every
connective returns the term the native operation computes from the original
argument contents; so the two embeddings agree on the result term for every
input, every native operation and every JVM copying choice, including at
arity 10 where the conjunction takes the stack path while disjunction,
exclusive-or and distinct take the heap path. -/
theorem connective_paths_same_result (op : NativeArrayOp) (c : Bool) (arg : List Int) :
    (Java_com_sri_yices_Yices_and op c arg).1 = (op arg).1 ∧
    (Java_com_sri_yices_Yices_or op c arg).1 = (op arg).1 ∧
    (Java_com_sri_yices_Yices_xor op c arg).1 = (op arg).1 ∧
    (Java_com_sri_yices_Yices_distinct op c arg).1 = (op arg).1 := by
  unfold Java_com_sri_yices_Yices_and Java_com_sri_yices_Yices_or
    Java_com_sri_yices_Yices_xor Java_com_sri_yices_Yices_distinct
  refine ⟨?_, ?_, ?_, ?_⟩ <;> split <;> rfl

/-!
Polynomial constructors over parallel arrays (source lines 1458 to 1517).
Both entry points first compare the array lengths and fall through to the
sentinel -1 without acquiring any elements when they differ; rationalPoly
additionally rejects a denominator array containing a negative entry after
acquiring, and releases everything it acquired on every path. The log records
how many array views were acquired and released and whether the native
constructor ran.
-/

/-- all_positive_longs (source lines 449 to 454): true when no entry of the
array is negative. -/
def all_positive_longs (a : List Int) : Bool :=
  a.all fun x => decide (0 ≤ x)

/-- What a polynomial entry point did with the JNI boundary during one call. -/
structure MarshalLog where
  acquired : Nat
  released : Nat
  nativeCalled : Bool
  deriving DecidableEq

/-- Java_com_sri_yices_Yices_intPoly (source lines 1458 to 1484): on
mismatched lengths the sentinel is returned before anything is acquired;
otherwise both arrays are acquired, the native constructor runs on them, and
both views are released. -/
def Java_com_sri_yices_Yices_intPoly (yices_poly_int64 : List Int → List Int → Int)
    (coeff t : List Int) : Int × MarshalLog :=
  if coeff.length = t.length then
    (yices_poly_int64 coeff t, ⟨2, 2, true⟩)
  else
    (-1, ⟨0, 0, false⟩)

/-- Java_com_sri_yices_Yices_rationalPoly (source lines 1487 to 1517): on
mismatched lengths the sentinel is returned before anything is acquired; with
matching lengths all three arrays are acquired and released, and the native
constructor runs only when every denominator entry is non-negative. -/
def Java_com_sri_yices_Yices_rationalPoly
    (yices_poly_rational64 : List Int → List Int → List Int → Int)
    (num den t : List Int) : Int × MarshalLog :=
  if num.length = den.length ∧ num.length = t.length then
    if all_positive_longs den then
      (yices_poly_rational64 num den t, ⟨3, 3, true⟩)
    else
      (-1, ⟨3, 3, false⟩)
  else
    (-1, ⟨0, 0, false⟩)

/-- C7: both multi-array operations fail fast on mismatched argument lengths:
whatever the native constructor would compute, the result is the sentinel -1,
no array view is acquired, and the native library is never entered. -/
theorem poly_length_mismatch_fails_fast :
    (∀ (f : List Int → List Int → Int) (coeff t : List Int),
      coeff.length ≠ t.length →
      Java_com_sri_yices_Yices_intPoly f coeff t = (-1, ⟨0, 0, false⟩)) ∧
    (∀ (g : List Int → List Int → List Int → Int) (num den t : List Int),
      ¬(num.length = den.length ∧ num.length = t.length) →
      Java_com_sri_yices_Yices_rationalPoly g num den t = (-1, ⟨0, 0, false⟩)) := by
  constructor
  · intro f coeff t h
    unfold Java_com_sri_yices_Yices_intPoly
    rw [if_neg h]
  · intro g num den t h
    unfold Java_com_sri_yices_Yices_rationalPoly
    rw [if_neg h]

theorem poly_length_mismatch_fails_fast_witness :
    Java_com_sri_yices_Yices_intPoly (fun _ _ => 7) [5] [] = (-1, ⟨0, 0, false⟩) ∧
    Java_com_sri_yices_Yices_rationalPoly (fun _ _ _ => 7) [5] [] [2] =
      (-1, ⟨0, 0, false⟩) :=
  ⟨poly_length_mismatch_fails_fast.1 (fun _ _ => 7) [5] [] (by decide),
   poly_length_mismatch_fails_fast.2 (fun _ _ _ => 7) [5] [] [2] (by decide)⟩

/-- C9: if some denominator entry is negative, rationalPoly returns the
sentinel -1 with the native constructor never invoked while all three acquired
views are still released; and in general every acquired view is released and
the native constructor runs only when all denominator entries are
non-negative. -/
theorem rationalPoly_negative_denominator :
    (∀ (g : List Int → List Int → List Int → Int) (num den t : List Int),
      num.length = den.length → num.length = t.length →
      (∃ x ∈ den, x < 0) →
      Java_com_sri_yices_Yices_rationalPoly g num den t = (-1, ⟨3, 3, false⟩)) ∧
    (∀ (g : List Int → List Int → List Int → Int) (num den t : List Int),
      (Java_com_sri_yices_Yices_rationalPoly g num den t).2.released =
        (Java_com_sri_yices_Yices_rationalPoly g num den t).2.acquired) ∧
    (∀ (g : List Int → List Int → List Int → Int) (num den t : List Int),
      (Java_com_sri_yices_Yices_rationalPoly g num den t).2.nativeCalled = true →
      all_positive_longs den = true) := by
  refine ⟨?_, ?_, ?_⟩
  · intro g num den t h1 h2 hneg
    have hfalse : all_positive_longs den = false := by
      rcases hneg with ⟨x, hx, hxneg⟩
      unfold all_positive_longs
      rw [List.all_eq_false]
      exact ⟨x, hx, by simpa using hxneg⟩
    unfold Java_com_sri_yices_Yices_rationalPoly
    rw [if_pos ⟨h1, h2⟩, hfalse]
    rfl
  · intro g num den t
    unfold Java_com_sri_yices_Yices_rationalPoly
    split
    · split
      · rfl
      · rfl
    · rfl
  · intro g num den t
    unfold Java_com_sri_yices_Yices_rationalPoly
    split
    · split
      · intro _
        assumption
      · intro hc
        exact absurd hc (by simp)
    · intro hc
      exact absurd hc (by simp)

theorem rationalPoly_negative_denominator_witness :
    Java_com_sri_yices_Yices_rationalPoly (fun _ _ _ => 7) [1] [-1] [5] =
      (-1, ⟨3, 3, false⟩) :=
  rationalPoly_negative_denominator.1 (fun _ _ _ => 7) [1] [-1] [5]
    (by decide) (by decide) ⟨-1, by decide, by decide⟩
